import Mathlib

/-!
Verification of the `lehungry` repository (two Python source files,
`cli.py` and `data_augmentation.py`) against its natural-language
specification.

The embedding is shallow: Python dicts of columns become association
lists in insertion order, Python sets of device paths become lists of
distinct strings, machine strings are Lean `String`, and the dataset
augmentation loop (`augment_batch`) is an explicit fold mirroring the
source line by line.  External collaborators (the OpenAI HTTP call, the
stdlib JSON codec, the filesystem) are represented at the value level,
as the spec declares them out of scope.
-/

set_option maxRecDepth 4096

namespace LeHungry

/-- A Python value stored in a dataset column: the batches processed by
`augment_batch` hold integer task indices and task strings. -/
inductive Val where
  | int (n : Int)
  | str (s : String)
deriving DecidableEq

/-- A columnar batch as handed to `augment_batch` by `datasets.map`:
a dict from column name to the list of per-row values, in insertion
order (Python dict keys are unique; theorems assume `Nodup` keys). -/
abbrev Batch := List (String × List Val)

/-- The augmentation cache `AUGMENTATION_CACHE`: a dict from task index
to the ordered list of task-string variants (original first). -/
abbrev Cache := List (Val × List String)

/-- `TASK_COLUMN = "single_task"` from `data_augmentation.py`. -/
def TASK_COLUMN : String := "single_task"

/-- The keys of a batch, in insertion order (`batch.keys()`). -/
def Batch.keys (b : Batch) : List String := b.map Prod.fst

/-- Column lookup `batch[col]`: first entry whose key matches (Python
dict lookup; keys are unique in every real batch). -/
def Batch.col : Batch → String → List Val
  | [], _ => []
  | p :: t, c => if p.1 = c then p.2 else Batch.col t c

/-- `AUGMENTATION_CACHE.get(task_idx, default)`. -/
def Cache.get : Cache → Val → List String → List String
  | [], _, dflt => dflt
  | p :: t, k, dflt => if p.1 = k then p.2 else Cache.get t k dflt

/-- Python `str()` of a value, as used by the f-string
`f"Task {task_idx}"`. -/
def Val.pyStr : Val → String
  | .int n => toString n
  | .str s => s

/-- `new_columns = list(batch.keys()); if TASK_COLUMN not in new_columns:
new_columns.append(TASK_COLUMN)`. -/
def new_columns (batch : Batch) : List String :=
  if TASK_COLUMN ∈ Batch.keys batch then Batch.keys batch
  else Batch.keys batch ++ [TASK_COLUMN]

/-- `new_data = {col: [] for col in new_columns}`. -/
def init_data (batch : Batch) : Batch :=
  (new_columns batch).map (fun c => (c, []))

/-- `new_data[c].append(v)`: append `v` to the column named `c`
(no-op when the key is absent, which never happens in the loop). -/
def pushVal : Batch → String → Val → Batch
  | [], _, _ => []
  | p :: t, c, v => (if p.1 = c then (p.1, p.2 ++ [v]) else p) :: pushVal t c v

/-- `augmented_tasks = AUGMENTATION_CACHE.get(task_idx, [f"Task {task_idx}"])`
where `task_idx = batch['task_index'][i]`. -/
def augmented_tasks (cache : Cache) (batch : Batch) (i : Nat) : List String :=
  let task_idx := (Batch.col batch "task_index").getD i (Val.str "")
  Cache.get cache task_idx ["Task " ++ Val.pyStr task_idx]

/-- `batch[col][i]`: the value of column `col` at row `i` (rows are
indexed by `range(len(batch['task_index']))`, so on a rectangular batch
`i` is always in bounds and the junk default is never reached). -/
def copyVal (batch : Batch) (i : Nat) (col : String) : Val :=
  (Batch.col batch col).getD i (Val.str "")

/-- The body of the inner `for task_string in augmented_tasks` loop:
copy every feature of row `i` (`for col in batch.keys():
new_data[col].append(batch[col][i])`), then append the text column
(`new_data[TASK_COLUMN].append(task_string)`). -/
def emit_row (batch : Batch) (i : Nat) (task_string : String) (d : Batch) : Batch :=
  pushVal
    ((Batch.keys batch).foldl
      (fun acc col => pushVal acc col (copyVal batch i col)) d)
    TASK_COLUMN (Val.str task_string)

/-- `augment_batch` from `data_augmentation.py`, with the global
`AUGMENTATION_CACHE` passed explicitly: for each row `i` of the batch
(`for i in range(len(batch['task_index']))`) and each cached variant,
emit one output row. -/
def augment_batch (cache : Cache) (batch : Batch) : Batch :=
  (List.range (Batch.col batch "task_index").length).foldl
    (fun d i => (augmented_tasks cache batch i).foldl
      (fun d2 ts => emit_row batch i ts d2) d)
    (init_data batch)

/-- What one (row, variant) pair contributes to output column `c`:
a copy of the row's value when `c` is an input column, plus the variant
string when `c` is the text column (both, in that order, when the text
column was already present in the input). -/
def rowDelta (batch : Batch) (i : Nat) (ts : String) (c : String) : List Val :=
  (if c ∈ Batch.keys batch then [copyVal batch i c] else []) ++
  (if c = TASK_COLUMN then [Val.str ts] else [])

/-- Concatenation of `f` over a list (the shape of every per-row
contribution to an output column). -/
def flatMapL (f : α → List β) : List α → List β
  | [] => []
  | a :: t => f a ++ flatMapL f t

theorem flatMapL_congr {α β : Type} {f g : α → List β} :
    ∀ l : List α, (∀ a ∈ l, f a = g a) → flatMapL f l = flatMapL g l
  | [], _ => rfl
  | a :: t, h => by
    simp only [flatMapL]
    rw [h a (by simp), flatMapL_congr t (fun x hx => h x (by simp [hx]))]

theorem flatMapL_length {α β : Type} (f : α → List β) :
    ∀ l : List α, (flatMapL f l).length = (l.map (fun a => (f a).length)).sum
  | [] => rfl
  | a :: t => by simp [flatMapL, flatMapL_length f t]

theorem flatMapL_singleton {α β : Type} (g : α → β) :
    ∀ l : List α, flatMapL (fun a => [g a]) l = l.map g
  | [] => rfl
  | a :: t => by simp [flatMapL, flatMapL_singleton g t]

theorem flatMapL_const {α β : Type} (v : β) :
    ∀ l : List α, flatMapL (fun _ => [v]) l = List.replicate l.length v
  | [] => rfl
  | a :: t => by simp [flatMapL, flatMapL_const v t, List.replicate_succ]

theorem range_map_getD {α β : Type} (d : α) (f : α → β) :
    ∀ l : List α, (List.range l.length).map (fun i => f (l.getD i d)) = l.map f
  | [] => rfl
  | a :: t => by
    have hcomp : ((fun i => f ((a :: t).getD i d)) ∘ Nat.succ) =
        fun i => f (t.getD i d) := by
      funext i
      simp
    rw [List.length_cons, List.range_succ_eq_map, List.map_cons, List.map_map, hcomp,
      range_map_getD d f t]
    simp

theorem sum_map_const_nat {α : Type} (k : Nat) :
    ∀ l : List α, (l.map (fun _ => k)).sum = k * l.length
  | [] => by simp
  | a :: t => by
    simp [sum_map_const_nat k t]
    ring

theorem sum_map_two_mul {α : Type} (f : α → Nat) :
    ∀ l : List α, (l.map (fun a => 2 * f a)).sum = 2 * (l.map f).sum
  | [] => rfl
  | a :: t => by
    simp [sum_map_two_mul f t]
    ring

theorem pushVal_keys (d : Batch) (c : String) (v : Val) :
    Batch.keys (pushVal d c v) = Batch.keys d := by
  induction d with
  | nil => rfl
  | cons p t ih =>
    by_cases h : p.1 = c <;> simp [pushVal, Batch.keys, h] <;>
      simpa [Batch.keys] using ih

theorem mem_keys_cons {p : String × List Val} {t : Batch} {c : String} :
    c ∈ Batch.keys (p :: t) ↔ c = p.1 ∨ c ∈ Batch.keys t := by
  simp [Batch.keys]

theorem col_pushVal_ne (d : Batch) {c c' : String} (v : Val) (h : c' ≠ c) :
    Batch.col (pushVal d c v) c' = Batch.col d c' := by
  have hcc : ¬ c = c' := fun e => h e.symm
  induction d with
  | nil => rfl
  | cons p t ih =>
    by_cases hp : p.1 = c
    · simp [pushVal, Batch.col, hp, hcc, ih]
    · by_cases hp' : p.1 = c'
      · simp [pushVal, Batch.col, hp, hp', h]
      · simp [pushVal, Batch.col, hp, hp', ih]

theorem col_pushVal_self (d : Batch) {c : String} (v : Val)
    (h : c ∈ Batch.keys d) :
    Batch.col (pushVal d c v) c = Batch.col d c ++ [v] := by
  induction d with
  | nil => simp [Batch.keys] at h
  | cons p t ih =>
    by_cases hp : p.1 = c
    · simp [pushVal, Batch.col, hp]
    · have h' : c ∈ Batch.keys t := by
        rcases mem_keys_cons.mp h with e | m
        · exact absurd e.symm hp
        · exact m
      simp [pushVal, Batch.col, hp, ih h']

theorem foldl_pushVal_keys (g : String → Val) :
    ∀ (cols : List String) (d : Batch),
      Batch.keys (cols.foldl (fun acc col => pushVal acc col (g col)) d) = Batch.keys d
  | [], _ => rfl
  | c0 :: rest, d => by
    rw [List.foldl_cons, foldl_pushVal_keys g rest, pushVal_keys]

theorem foldl_pushVal_col (g : String → Val) (c : String) :
    ∀ (cols : List String) (d : Batch), cols.Nodup →
      (∀ x ∈ cols, x ∈ Batch.keys d) →
      Batch.col (cols.foldl (fun acc col => pushVal acc col (g col)) d) c =
        Batch.col d c ++ (if c ∈ cols then [g c] else [])
  | [], d, _, _ => by simp
  | c0 :: rest, d, hnd, hsub => by
    rw [List.foldl_cons]
    have hnd' : rest.Nodup := (List.nodup_cons.mp hnd).2
    have h0 : c0 ∉ rest := (List.nodup_cons.mp hnd).1
    have hsub' : ∀ x ∈ rest, x ∈ Batch.keys (pushVal d c0 (g c0)) := by
      intro x hx
      rw [pushVal_keys]
      exact hsub x (List.mem_cons_of_mem _ hx)
    rw [foldl_pushVal_col g c rest _ hnd' hsub']
    by_cases hc : c = c0
    · subst hc
      rw [col_pushVal_self d (g c) (hsub c (List.mem_cons_self _ _))]
      simp [h0]
    · rw [col_pushVal_ne d (g c0) hc]
      by_cases hcr : c ∈ rest <;> simp [hc, hcr, List.mem_cons]

theorem emit_row_keys (batch : Batch) (i : Nat) (ts : String) (d : Batch) :
    Batch.keys (emit_row batch i ts d) = Batch.keys d := by
  unfold emit_row
  rw [pushVal_keys, foldl_pushVal_keys]

theorem emit_row_col (batch : Batch) (i : Nat) (ts : String) (d : Batch) (c : String)
    (hnd : (Batch.keys batch).Nodup)
    (hsub : ∀ x ∈ Batch.keys batch, x ∈ Batch.keys d)
    (hT : TASK_COLUMN ∈ Batch.keys d) :
    Batch.col (emit_row batch i ts d) c = Batch.col d c ++ rowDelta batch i ts c := by
  unfold emit_row rowDelta
  by_cases hc : c = TASK_COLUMN
  · subst hc
    rw [col_pushVal_self _ (Val.str ts)
      (by rw [foldl_pushVal_keys]; exact hT)]
    rw [foldl_pushVal_col (copyVal batch i) TASK_COLUMN _ _ hnd hsub]
    by_cases hmem : TASK_COLUMN ∈ Batch.keys batch <;>
      simp [hmem, List.append_assoc]
  · rw [col_pushVal_ne _ (Val.str ts) hc]
    rw [foldl_pushVal_col (copyVal batch i) c _ _ hnd hsub]
    simp [hc]

theorem foldl_emit_keys (batch : Batch) (i : Nat) :
    ∀ (ls : List String) (d : Batch),
      Batch.keys (ls.foldl (fun d2 ts => emit_row batch i ts d2) d) = Batch.keys d
  | [], _ => rfl
  | ts :: rest, d => by
    rw [List.foldl_cons, foldl_emit_keys batch i rest, emit_row_keys]

theorem foldl_emit_col (batch : Batch) (i : Nat) (c : String)
    (hnd : (Batch.keys batch).Nodup) :
    ∀ (ls : List String) (d : Batch),
      (∀ x ∈ Batch.keys batch, x ∈ Batch.keys d) → TASK_COLUMN ∈ Batch.keys d →
      Batch.col (ls.foldl (fun d2 ts => emit_row batch i ts d2) d) c =
        Batch.col d c ++ flatMapL (fun ts => rowDelta batch i ts c) ls
  | [], d, _, _ => by simp [flatMapL]
  | ts :: rest, d, hsub, hT => by
    have hsub' : ∀ x ∈ Batch.keys batch, x ∈ Batch.keys (emit_row batch i ts d) := by
      intro x hx
      rw [emit_row_keys]
      exact hsub x hx
    have hT' : TASK_COLUMN ∈ Batch.keys (emit_row batch i ts d) := by
      rw [emit_row_keys]
      exact hT
    rw [List.foldl_cons, foldl_emit_col batch i c hnd rest _ hsub' hT',
      emit_row_col batch i ts d c hnd hsub hT]
    simp [flatMapL, List.append_assoc]

theorem foldl_rows_keys (cache : Cache) (batch : Batch) :
    ∀ (idxs : List Nat) (d0 : Batch),
      Batch.keys (idxs.foldl (fun d i => (augmented_tasks cache batch i).foldl
        (fun d2 ts => emit_row batch i ts d2) d) d0) = Batch.keys d0
  | [], _ => rfl
  | i0 :: rest, d0 => by
    rw [List.foldl_cons, foldl_rows_keys cache batch rest, foldl_emit_keys]

theorem foldl_rows_col (cache : Cache) (batch : Batch) (c : String)
    (hnd : (Batch.keys batch).Nodup) :
    ∀ (idxs : List Nat) (d0 : Batch),
      (∀ x ∈ Batch.keys batch, x ∈ Batch.keys d0) → TASK_COLUMN ∈ Batch.keys d0 →
      Batch.col (idxs.foldl (fun d i => (augmented_tasks cache batch i).foldl
          (fun d2 ts => emit_row batch i ts d2) d) d0) c =
        Batch.col d0 c ++
          flatMapL (fun i => flatMapL (fun ts => rowDelta batch i ts c)
            (augmented_tasks cache batch i)) idxs
  | [], d0, _, _ => by simp [flatMapL]
  | i0 :: rest, d0, hsub, hT => by
    have hkeys : Batch.keys ((augmented_tasks cache batch i0).foldl
        (fun d2 ts => emit_row batch i0 ts d2) d0) = Batch.keys d0 :=
      foldl_emit_keys batch i0 _ d0
    have hsub' : ∀ x ∈ Batch.keys batch,
        x ∈ Batch.keys ((augmented_tasks cache batch i0).foldl
          (fun d2 ts => emit_row batch i0 ts d2) d0) := by
      intro x hx
      rw [hkeys]
      exact hsub x hx
    have hT' : TASK_COLUMN ∈ Batch.keys ((augmented_tasks cache batch i0).foldl
        (fun d2 ts => emit_row batch i0 ts d2) d0) := by
      rw [hkeys]
      exact hT
    rw [List.foldl_cons, foldl_rows_col cache batch c hnd rest _ hsub' hT',
      foldl_emit_col batch i0 c hnd _ d0 hsub hT]
    simp [flatMapL, List.append_assoc]

theorem col_const_nil : ∀ (cols : List String) (c : String),
    Batch.col (cols.map (fun k => (k, ([] : List Val)))) c = []
  | [], _ => rfl
  | k :: rest, c => by
    by_cases h : k = c <;> simp [Batch.col, h, col_const_nil rest c]

theorem init_data_col (batch : Batch) (c : String) :
    Batch.col (init_data batch) c = [] :=
  col_const_nil (new_columns batch) c

theorem init_data_keys (batch : Batch) :
    Batch.keys (init_data batch) = new_columns batch := by
  have hfun : (Prod.fst ∘ fun c : String => (c, ([] : List Val))) = id := by
    funext c
    rfl
  unfold init_data Batch.keys
  rw [List.map_map, hfun, List.map_id]

theorem keys_subset_new_columns (batch : Batch) :
    ∀ x ∈ Batch.keys batch, x ∈ new_columns batch := by
  intro x hx
  unfold new_columns
  by_cases h : TASK_COLUMN ∈ Batch.keys batch <;> simp [h, hx]

theorem task_column_mem_new_columns (batch : Batch) :
    TASK_COLUMN ∈ new_columns batch := by
  unfold new_columns
  by_cases h : TASK_COLUMN ∈ Batch.keys batch <;> simp [h]

/-- Master characterization: each output column of `augment_batch` is the
concatenation, over input rows in order and cached variants in order, of
that (row, variant) pair's contribution. -/
theorem augment_batch_col (cache : Cache) (batch : Batch)
    (hnd : (Batch.keys batch).Nodup) (c : String) :
    Batch.col (augment_batch cache batch) c =
      flatMapL (fun i => flatMapL (fun ts => rowDelta batch i ts c)
        (augmented_tasks cache batch i))
        (List.range (Batch.col batch "task_index").length) := by
  unfold augment_batch
  have hsub : ∀ x ∈ Batch.keys batch, x ∈ Batch.keys (init_data batch) := by
    intro x hx
    rw [init_data_keys]
    exact keys_subset_new_columns batch x hx
  have hT : TASK_COLUMN ∈ Batch.keys (init_data batch) := by
    rw [init_data_keys]
    exact task_column_mem_new_columns batch
  rw [foldl_rows_col cache batch c hnd _ (init_data batch) hsub hT, init_data_col]
  simp

/-- When the input batch does not already carry the text column, the
output text column lists, per input row in order, the cached variants in
cache order, wrapped as string values. -/
theorem augment_text_col_absent (cache : Cache) (batch : Batch)
    (hnd : (Batch.keys batch).Nodup) (hT : TASK_COLUMN ∉ Batch.keys batch) :
    Batch.col (augment_batch cache batch) TASK_COLUMN =
      flatMapL (fun i => (augmented_tasks cache batch i).map Val.str)
        (List.range (Batch.col batch "task_index").length) := by
  rw [augment_batch_col cache batch hnd TASK_COLUMN]
  apply flatMapL_congr
  intro i _
  have h1 : ∀ ts, rowDelta batch i ts TASK_COLUMN = [Val.str ts] := by
    intro ts
    simp [rowDelta, hT]
  calc flatMapL (fun ts => rowDelta batch i ts TASK_COLUMN) (augmented_tasks cache batch i)
      = flatMapL (fun ts => [Val.str ts]) (augmented_tasks cache batch i) :=
        flatMapL_congr _ (fun ts _ => h1 ts)
    _ = (augmented_tasks cache batch i).map Val.str := flatMapL_singleton Val.str _

/-- Every input column of the output repeats, per input row, that row's
value once per cached variant. -/
theorem augment_nontext_col (cache : Cache) (batch : Batch)
    (hnd : (Batch.keys batch).Nodup) (c : String)
    (hc : c ∈ Batch.keys batch) (hcT : c ≠ TASK_COLUMN) :
    Batch.col (augment_batch cache batch) c =
      flatMapL (fun i => List.replicate (augmented_tasks cache batch i).length
        (copyVal batch i c))
        (List.range (Batch.col batch "task_index").length) := by
  rw [augment_batch_col cache batch hnd c]
  apply flatMapL_congr
  intro i _
  have h1 : ∀ ts, rowDelta batch i ts c = [copyVal batch i c] := by
    intro ts
    simp [rowDelta, hc, hcT]
  calc flatMapL (fun ts => rowDelta batch i ts c) (augmented_tasks cache batch i)
      = flatMapL (fun _ => [copyVal batch i c]) (augmented_tasks cache batch i) :=
        flatMapL_congr _ (fun ts _ => h1 ts)
    _ = List.replicate (augmented_tasks cache batch i).length (copyVal batch i c) :=
        flatMapL_const _ _

/-- When the input batch already carries the text column, each (row,
variant) pair pushes two values onto it: the row's original value, then
the variant. -/
theorem augment_text_col_present (cache : Cache) (batch : Batch)
    (hnd : (Batch.keys batch).Nodup) (hT : TASK_COLUMN ∈ Batch.keys batch) :
    Batch.col (augment_batch cache batch) TASK_COLUMN =
      flatMapL (fun i => flatMapL
        (fun ts => [copyVal batch i TASK_COLUMN, Val.str ts])
        (augmented_tasks cache batch i))
        (List.range (Batch.col batch "task_index").length) := by
  rw [augment_batch_col cache batch hnd TASK_COLUMN]
  apply flatMapL_congr
  intro i _
  apply flatMapL_congr
  intro ts _
  simp [rowDelta, hT]

/-- The length of every non-text output column is the sum, over rows, of
the variant-list lengths. -/
theorem augment_nontext_col_length (cache : Cache) (batch : Batch)
    (hnd : (Batch.keys batch).Nodup) (c : String)
    (hc : c ∈ Batch.keys batch) (hcT : c ≠ TASK_COLUMN) :
    (Batch.col (augment_batch cache batch) c).length =
      ((List.range (Batch.col batch "task_index").length).map
        (fun i => (augmented_tasks cache batch i).length)).sum := by
  rw [augment_nontext_col cache batch hnd c hc hcT, flatMapL_length]
  simp

theorem cache_get_absent (k : Val) (dflt : List String) :
    ∀ cache : Cache, (∀ p ∈ cache, p.1 ≠ k) → Cache.get cache k dflt = dflt
  | [], _ => rfl
  | p :: t, h => by
    have hp : ¬ p.1 = k := h p (by simp)
    simp [Cache.get, hp, cache_get_absent k dflt t (fun q hq => h q (by simp [hq]))]

/-- A two-row batch whose rows both carry task index 1, with one extra
physical column, as in the spec's scenario. -/
def sampleBatch : Batch :=
  [("task_index", [Val.int 1, Val.int 1]), ("obs", [Val.int 10, Val.int 20])]

/-- The spec scenario's cache: task 1 maps to the original string and
one paraphrase. -/
def sampleCache : Cache :=
  [(Val.int 1, ["pick up the cup", "grab the cup"])]

/-- A one-row batch whose task index 7 has no cache entry. -/
def missingBatch : Batch := [("task_index", [Val.int 7])]

/-- A batch that already contains the `single_task` text column. -/
def collideBatch : Batch :=
  [("task_index", [Val.int 1]), (TASK_COLUMN, [Val.str "orig"])]

/-- C1: the output of `augment_batch` has row count (read off any output
column other than the appended text column, and also off the text column
whenever the input did not already contain it) equal to the sum, over
the input batch's rows, of the length of the cache entry for that row's
task index, a missing index counting as the one-element placeholder
list. -/
theorem augment_batch_row_count (cache : Cache) (batch : Batch)
    (hnd : (Batch.keys batch).Nodup) (_hti : "task_index" ∈ Batch.keys batch) :
    (∀ c ∈ Batch.keys batch, c ≠ TASK_COLUMN →
      (Batch.col (augment_batch cache batch) c).length =
        ((Batch.col batch "task_index").map
          (fun idx => (Cache.get cache idx ["Task " ++ Val.pyStr idx]).length)).sum) ∧
    (TASK_COLUMN ∉ Batch.keys batch →
      (Batch.col (augment_batch cache batch) TASK_COLUMN).length =
        ((Batch.col batch "task_index").map
          (fun idx => (Cache.get cache idx ["Task " ++ Val.pyStr idx]).length)).sum) := by
  have hsum : ((List.range (Batch.col batch "task_index").length).map
      (fun i => (augmented_tasks cache batch i).length)).sum =
      ((Batch.col batch "task_index").map
        (fun idx => (Cache.get cache idx ["Task " ++ Val.pyStr idx]).length)).sum := by
    rw [← range_map_getD (Val.str "")
      (fun idx => (Cache.get cache idx ["Task " ++ Val.pyStr idx]).length)
      (Batch.col batch "task_index")]
    rfl
  constructor
  · intro c hc hcT
    rw [augment_nontext_col_length cache batch hnd c hc hcT]
    exact hsum
  · intro hT
    rw [augment_text_col_absent cache batch hnd hT, flatMapL_length]
    simp only [List.length_map]
    exact hsum

theorem augment_batch_row_count_witness :
    (Batch.keys sampleBatch).Nodup ∧ "task_index" ∈ Batch.keys sampleBatch ∧
    (Batch.col (augment_batch sampleCache sampleBatch) "task_index").length = 4 :=
  ⟨by decide, by decide,
    ((augment_batch_row_count sampleCache sampleBatch (by decide) (by decide)).1
      "task_index" (by decide) (by decide)).trans (by decide)⟩

/-- C2: every non-text output column repeats, per input row in order,
that row's value once per cached variant for that row's task index, so
each output row's non-text values are copies of its source input row's
values. -/
theorem augment_batch_preserves_columns (cache : Cache) (batch : Batch)
    (hnd : (Batch.keys batch).Nodup) (c : String)
    (hc : c ∈ Batch.keys batch) (hcT : c ≠ TASK_COLUMN) :
    Batch.col (augment_batch cache batch) c =
      flatMapL (fun i => List.replicate (augmented_tasks cache batch i).length
        (copyVal batch i c))
        (List.range (Batch.col batch "task_index").length) :=
  augment_nontext_col cache batch hnd c hc hcT

theorem augment_batch_preserves_columns_witness :
    (Batch.keys sampleBatch).Nodup ∧ "obs" ∈ Batch.keys sampleBatch ∧
    "obs" ≠ TASK_COLUMN ∧
    Batch.col (augment_batch sampleCache sampleBatch) "obs" =
      [Val.int 10, Val.int 10, Val.int 20, Val.int 20] :=
  ⟨by decide, by decide, by decide,
    (augment_batch_preserves_columns sampleCache sampleBatch (by decide) "obs"
      (by decide) (by decide)).trans (by decide)⟩

/-- C3: `augment_batch` is a pure order-preserving transform: output
rows come grouped per input row in input order, and within one row's
expansion the text column follows the cache's variant order (original
first, then paraphrases); the witness instantiates the spec's two-row
scenario, producing exactly 4 rows with the doubled variant list. -/
theorem augment_batch_text_order (cache : Cache) (batch : Batch)
    (hnd : (Batch.keys batch).Nodup) (hT : TASK_COLUMN ∉ Batch.keys batch) :
    Batch.col (augment_batch cache batch) TASK_COLUMN =
      flatMapL (fun i => (augmented_tasks cache batch i).map Val.str)
        (List.range (Batch.col batch "task_index").length) :=
  augment_text_col_absent cache batch hnd hT

theorem augment_batch_text_order_witness :
    TASK_COLUMN ∉ Batch.keys sampleBatch ∧
    Batch.col (augment_batch sampleCache sampleBatch) TASK_COLUMN =
      [Val.str "pick up the cup", Val.str "grab the cup",
       Val.str "pick up the cup", Val.str "grab the cup"] ∧
    (Batch.col (augment_batch sampleCache sampleBatch) "task_index").length = 4 :=
  ⟨by decide,
    (augment_batch_text_order sampleCache sampleBatch (by decide) (by decide)).trans
      (by decide),
    by decide⟩

/-- C9: an input row whose task index is absent from the cache expands
to exactly one output row whose text value is the literal fallback
string derived from the index (`"Task {idx}"`), instead of failing. -/
theorem augment_batch_missing_index (cache : Cache) (batch : Batch) (i : Nat)
    (hnd : (Batch.keys batch).Nodup) (hT : TASK_COLUMN ∉ Batch.keys batch)
    (habs : ∀ p ∈ cache, p.1 ≠ (Batch.col batch "task_index").getD i (Val.str "")) :
    augmented_tasks cache batch i =
      ["Task " ++ Val.pyStr ((Batch.col batch "task_index").getD i (Val.str ""))] ∧
    Batch.col (augment_batch cache batch) TASK_COLUMN =
      flatMapL (fun j => (augmented_tasks cache batch j).map Val.str)
        (List.range (Batch.col batch "task_index").length) :=
  ⟨cache_get_absent _ _ cache habs, augment_text_col_absent cache batch hnd hT⟩

theorem augment_batch_missing_index_witness :
    (∀ p ∈ sampleCache, p.1 ≠ (Batch.col missingBatch "task_index").getD 0 (Val.str "")) ∧
    augmented_tasks sampleCache missingBatch 0 = ["Task 7"] ∧
    Batch.col (augment_batch sampleCache missingBatch) TASK_COLUMN = [Val.str "Task 7"] :=
  ⟨by decide,
    (augment_batch_missing_index sampleCache missingBatch 0 (by decide) (by decide)
      (by decide)).1.trans (by decide),
    (augment_batch_missing_index sampleCache missingBatch 0 (by decide) (by decide)
      (by decide)).2.trans (by decide)⟩

/-- C10: when the input batch already contains the `single_task` column,
each emitted row appends to it twice — the source row's original value
during the copy-all-columns loop and then the variant — so the output
text column interleaves originals with variants and its length is
exactly twice that of every other output column: the output is no
longer rectangular. -/
theorem augment_batch_text_column_collision (cache : Cache) (batch : Batch)
    (hnd : (Batch.keys batch).Nodup) (hT : TASK_COLUMN ∈ Batch.keys batch) :
    Batch.col (augment_batch cache batch) TASK_COLUMN =
      flatMapL (fun i => flatMapL
        (fun ts => [copyVal batch i TASK_COLUMN, Val.str ts])
        (augmented_tasks cache batch i))
        (List.range (Batch.col batch "task_index").length) ∧
    ∀ c ∈ Batch.keys batch, c ≠ TASK_COLUMN →
      (Batch.col (augment_batch cache batch) TASK_COLUMN).length =
        2 * (Batch.col (augment_batch cache batch) c).length := by
  constructor
  · exact augment_text_col_present cache batch hnd hT
  · intro c hc hcT
    rw [augment_text_col_present cache batch hnd hT,
      augment_nontext_col_length cache batch hnd c hc hcT, flatMapL_length]
    show (List.map
        (fun i => (flatMapL (fun ts => [copyVal batch i TASK_COLUMN, Val.str ts])
          (augmented_tasks cache batch i)).length)
        (List.range (Batch.col batch "task_index").length)).sum =
      2 * ((List.range (Batch.col batch "task_index").length).map
        (fun i => (augmented_tasks cache batch i).length)).sum
    have hlen : ∀ i ∈ List.range (Batch.col batch "task_index").length,
        (flatMapL (fun ts => [copyVal batch i TASK_COLUMN, Val.str ts])
          (augmented_tasks cache batch i)).length =
        2 * (augmented_tasks cache batch i).length := by
      intro i _
      rw [flatMapL_length]
      have h2 : (fun ts : String =>
          ([copyVal batch i TASK_COLUMN, Val.str ts] : List Val).length) =
          fun _ => 2 := by
        funext ts
        rfl
      rw [h2, sum_map_const_nat]
    rw [List.map_congr_left hlen, sum_map_two_mul]

theorem augment_batch_text_column_collision_witness :
    (Batch.keys collideBatch).Nodup ∧ TASK_COLUMN ∈ Batch.keys collideBatch ∧
    Batch.col (augment_batch sampleCache collideBatch) TASK_COLUMN =
      [Val.str "orig", Val.str "pick up the cup", Val.str "orig", Val.str "grab the cup"] ∧
    (Batch.col (augment_batch sampleCache collideBatch) TASK_COLUMN).length =
      2 * (Batch.col (augment_batch sampleCache collideBatch) "task_index").length :=
  ⟨by decide, by decide,
    (augment_batch_text_column_collision sampleCache collideBatch (by decide)
      (by decide)).1.trans (by decide),
    (augment_batch_text_column_collision sampleCache collideBatch (by decide)
      (by decide)).2 "task_index" (by decide) (by decide)⟩

/-! ### Port resolver (`run_clean_find_port` in `cli.py`)

The two snapshots of `get_current_ports_set` are Python sets of device
paths; a set is embedded as a `List String` whose elements are distinct
(`Nodup`), in iteration order.  `initial_ports - after_unplug_ports`
becomes a filter, `list(removed_ports)[0]` becomes `head?`. -/

/-- The decision core of `run_clean_find_port`: compute
`removed_ports = initial_ports - after_unplug_ports` and return its sole
element if exactly one port disappeared, `None` otherwise.  The prompts
and the re-plug confirmation around it are interactive I/O with no
effect on the returned value. -/
def run_clean_find_port (initial_ports after_unplug_ports : List String) :
    Option String :=
  let removed_ports := initial_ports.filter
    (fun p => decide (p ∉ after_unplug_ports))
  if removed_ports.length = 1 then removed_ports.head? else none

theorem nodup_eq_singleton {α : Type} {l : List α} (hnd : l.Nodup) (a : α) :
    l = [a] ↔ a ∈ l ∧ ∀ x ∈ l, x = a := by
  constructor
  · rintro rfl
    simp
  · rintro ⟨hmem, hall⟩
    match l, hmem with
    | b :: t, hmem =>
      have hb : b = a := hall b (by simp)
      subst hb
      have ht : t = [] := by
        match t with
        | [] => rfl
        | c :: t' =>
          have hc : c = b := hall c (by simp)
          subst hc
          exact absurd (List.nodup_cons.mp hnd).1 (by simp)
      rw [ht]

theorem removed_mem {initial after : List String} {x : String} :
    x ∈ initial.filter (fun p => decide (p ∉ after)) ↔
      x ∈ initial ∧ x ∉ after := by
  simp [List.mem_filter]

/-- C4: the port detector returns a device path exactly when the set
difference `before − after` has exactly one element, and the returned
path is that sole element; an empty or plural difference returns
nothing. -/
theorem run_clean_find_port_spec (initial after : List String)
    (hnd : initial.Nodup) :
    (∀ p, run_clean_find_port initial after = some p ↔
      (p ∈ initial ∧ p ∉ after ∧ ∀ q ∈ initial, q ∉ after → q = p)) ∧
    (run_clean_find_port initial after = none ↔
      ¬ ∃ p, p ∈ initial ∧ p ∉ after ∧ ∀ q ∈ initial, q ∉ after → q = p) := by
  have hndr : (initial.filter (fun p => decide (p ∉ after))).Nodup :=
    hnd.filter _
  have hmain : ∀ p, run_clean_find_port initial after = some p ↔
      (p ∈ initial ∧ p ∉ after ∧ ∀ q ∈ initial, q ∉ after → q = p) := by
    intro p
    have hsing : initial.filter (fun q => decide (q ∉ after)) = [p] ↔
        (p ∈ initial ∧ p ∉ after ∧ ∀ q ∈ initial, q ∉ after → q = p) := by
      rw [nodup_eq_singleton hndr p]
      constructor
      · rintro ⟨hmem, hall⟩
        rcases removed_mem.mp hmem with ⟨h1, h2⟩
        exact ⟨h1, h2, fun q hq hqa => hall q (removed_mem.mpr ⟨hq, hqa⟩)⟩
      · rintro ⟨h1, h2, hall⟩
        exact ⟨removed_mem.mpr ⟨h1, h2⟩,
          fun x hx => hall x (removed_mem.mp hx).1 (removed_mem.mp hx).2⟩
    rw [← hsing]
    unfold run_clean_find_port
    by_cases hlen : (initial.filter (fun q => decide (q ∉ after))).length = 1
    · simp only [hlen, if_pos]
      match hfe : initial.filter (fun q => decide (q ∉ after)), hlen with
      | [x], _ =>
        simp
    · simp only [hlen, if_neg, not_false_iff]
      constructor
      · intro h
        exact absurd h (by simp)
      · intro h
        rw [h] at hlen
        exact absurd rfl hlen
  refine ⟨hmain, ?_⟩
  constructor
  · intro h
    rintro ⟨p, hp⟩
    have := (hmain p).mpr hp
    rw [h] at this
    exact Option.noConfusion this
  · intro h
    match hrun : run_clean_find_port initial after with
    | none => rfl
    | some p => exact absurd ⟨p, (hmain p).mp hrun⟩ h

theorem run_clean_find_port_spec_witness :
    (["/dev/ttyACM0", "/dev/ttyACM1"] : List String).Nodup ∧
    run_clean_find_port ["/dev/ttyACM0", "/dev/ttyACM1"] ["/dev/ttyACM1"] =
      some "/dev/ttyACM0" :=
  ⟨by decide,
    ((run_clean_find_port_spec ["/dev/ttyACM0", "/dev/ttyACM1"] ["/dev/ttyACM1"]
      (by decide)).1 "/dev/ttyACM0").mpr (by decide)⟩

/-! ### Config store (`load_config` / `save_config` in `cli.py`) -/

/-- The `.env` half of `save_config`: the loop writes one `KEY="value"`
line per variable, modelled as (name, value) pairs in write order.
`leader_port` expands to `LEADER_PORT` and `TELEOP_PORT`,
`follower_port` to `FOLLOWER_PORT` and `ROBOT_PORT`, every other key to
its uppercase form. -/
def env_entries : List (String × String) → List (String × String)
  | [] => []
  | (key, value) :: rest =>
    (if key = "leader_port" then [("LEADER_PORT", value), ("TELEOP_PORT", value)]
     else if key = "follower_port" then
       [("FOLLOWER_PORT", value), ("ROBOT_PORT", value)]
     else [(key.toUpper, value)]) ++ env_entries rest

theorem env_entries_length : ∀ config : List (String × String),
    (env_entries config).length =
      (config.map (fun kv =>
        if kv.1 = "leader_port" ∨ kv.1 = "follower_port" then 2 else 1)).sum
  | [] => rfl
  | (key, value) :: rest => by
    by_cases h1 : key = "leader_port"
    · simp [env_entries, h1, env_entries_length rest]
      omega
    · by_cases h2 : key = "follower_port"
      · simp [env_entries, h1, h2, env_entries_length rest]
        omega
      · simp [env_entries, h1, h2, env_entries_length rest]
        omega

theorem mem_env_entries_cons {e : String × String} (key value : String)
    {rest : List (String × String)} (h : e ∈ env_entries rest) :
    e ∈ env_entries ((key, value) :: rest) := by
  simp only [env_entries]
  exact List.mem_append_right _ h

theorem env_entries_leader : ∀ (config : List (String × String)) (v : String),
    ("leader_port", v) ∈ config →
      ("LEADER_PORT", v) ∈ env_entries config ∧
      ("TELEOP_PORT", v) ∈ env_entries config
  | (key, value) :: rest, v, h => by
    rcases List.mem_cons.mp h with he | ht
    · injection he with hk hv
      subst hk
      subst hv
      constructor <;> simp [env_entries]
    · have ih := env_entries_leader rest v ht
      exact ⟨mem_env_entries_cons key value ih.1, mem_env_entries_cons key value ih.2⟩

theorem env_entries_follower : ∀ (config : List (String × String)) (v : String),
    ("follower_port", v) ∈ config →
      ("FOLLOWER_PORT", v) ∈ env_entries config ∧
      ("ROBOT_PORT", v) ∈ env_entries config
  | (key, value) :: rest, v, h => by
    rcases List.mem_cons.mp h with he | ht
    · injection he with hk hv
      subst hk
      subst hv
      constructor <;> simp [env_entries]
    · have ih := env_entries_follower rest v ht
      exact ⟨mem_env_entries_cons key value ih.1, mem_env_entries_cons key value ih.2⟩

theorem env_entries_other : ∀ (config : List (String × String)) (k v : String),
    (k, v) ∈ config → k ≠ "leader_port" → k ≠ "follower_port" →
      (k.toUpper, v) ∈ env_entries config
  | (key, value) :: rest, k, v, h, h1, h2 => by
    rcases List.mem_cons.mp h with he | ht
    · injection he with hk hv
      subst hk
      subst hv
      simp [env_entries, h1, h2]
    · exact mem_env_entries_cons key value (env_entries_other rest k v ht h1 h2)

theorem env_entries_single_port (key v : String)
    (h : key = "leader_port" ∨ key = "follower_port") :
    (env_entries [(key, v)]).length = 2 := by
  rcases h with h | h <;> subst h <;> rfl

/-- C5 counterexample: a configuration holding both port keys is written
as four shell variables, so the shell-variable file does not "always
contain exactly two entries when a leader or follower port key is
present". -/
theorem env_entries_not_always_two :
    "leader_port" ∈ ([("leader_port", "/dev/ttyACM0"),
        ("follower_port", "/dev/ttyACM1")] : List (String × String)).map Prod.fst ∧
    (env_entries [("leader_port", "/dev/ttyACM0"),
        ("follower_port", "/dev/ttyACM1")]).length = 4 ∧
    (env_entries [("leader_port", "/dev/ttyACM0"),
        ("follower_port", "/dev/ttyACM1")]).length ≠ 2 := by
  refine ⟨by decide, rfl, by decide⟩

/-- C5 (amended): `leader_port` expands to the two variables
`LEADER_PORT` and `TELEOP_PORT`, `follower_port` to `FOLLOWER_PORT` and
`ROBOT_PORT`, every other key maps one-to-one to its uppercase form, and
the shell-variable file contains exactly two entries per port key
present (so exactly two overall only when the configuration is a single
port key). -/
theorem save_config_env_spec (config : List (String × String)) :
    (env_entries config).length =
      (config.map (fun kv =>
        if kv.1 = "leader_port" ∨ kv.1 = "follower_port" then 2 else 1)).sum ∧
    (∀ v, ("leader_port", v) ∈ config →
      ("LEADER_PORT", v) ∈ env_entries config ∧
      ("TELEOP_PORT", v) ∈ env_entries config) ∧
    (∀ v, ("follower_port", v) ∈ config →
      ("FOLLOWER_PORT", v) ∈ env_entries config ∧
      ("ROBOT_PORT", v) ∈ env_entries config) ∧
    (∀ k v, (k, v) ∈ config → k ≠ "leader_port" → k ≠ "follower_port" →
      (k.toUpper, v) ∈ env_entries config) ∧
    (∀ key v, (key = "leader_port" ∨ key = "follower_port") → config = [(key, v)] →
      (env_entries config).length = 2) :=
  ⟨env_entries_length config,
    fun v h => env_entries_leader config v h,
    fun v h => env_entries_follower config v h,
    fun k v h h1 h2 => env_entries_other config k v h h1 h2,
    fun key v hkey hcfg => by
      rw [hcfg]
      exact env_entries_single_port key v hkey⟩

theorem save_config_env_spec_witness :
    ("leader_port", "/dev/ttyACM0") ∈
      ([("leader_port", "/dev/ttyACM0")] : List (String × String)) ∧
    ("LEADER_PORT", "/dev/ttyACM0") ∈ env_entries [("leader_port", "/dev/ttyACM0")] ∧
    ("TELEOP_PORT", "/dev/ttyACM0") ∈ env_entries [("leader_port", "/dev/ttyACM0")] ∧
    (env_entries [("leader_port", "/dev/ttyACM0")]).length = 2 :=
  ⟨by decide,
    ((save_config_env_spec [("leader_port", "/dev/ttyACM0")]).2.1 "/dev/ttyACM0"
      (by decide)).1,
    ((save_config_env_spec [("leader_port", "/dev/ttyACM0")]).2.1 "/dev/ttyACM0"
      (by decide)).2,
    (save_config_env_spec [("leader_port", "/dev/ttyACM0")]).2.2.2.2 "leader_port"
      "/dev/ttyACM0" (Or.inl rfl) rfl⟩

/-- A Python value as produced by `json.load`: the JSON codec itself is
the standard library's, declared an out-of-scope external collaborator
by the spec, so file bytes are represented by the value they decode
to. -/
inductive PyVal where
  | str (s : String)
  | int (n : Int)
  | bool (b : Bool)
  | null
  | list (items : List PyVal)
  | dict (entries : List (String × PyVal))

/-- Modelled from the spec: the state of `config.json` as `load_config`
classifies it — absent (`os.path.exists` false), present but failing
JSON decoding (`json.JSONDecodeError`), or present and decoding to a
JSON value.  The byte-level parser is the stdlib's, out of scope per the
spec's section 1. -/
inductive ConfigFile where
  | absent
  | malformed
  | json (v : PyVal)

/-- `load_config`: missing file → `{}`; `JSONDecodeError` → `{}`;
otherwise the decoded value. -/
def load_config : ConfigFile → PyVal
  | ConfigFile.absent => PyVal.dict []
  | ConfigFile.malformed => PyVal.dict []
  | ConfigFile.json v => v

/-- The `config.json` half of `save_config`: `json.dump(config, f)` for
a flat string-to-string mapping writes the file that decodes back to the
corresponding JSON object. -/
def save_config_json (config : List (String × String)) : ConfigFile :=
  ConfigFile.json (PyVal.dict (config.map (fun kv => (kv.1, PyVal.str kv.2))))

/-- Python `d[k]`-style lookup on a decoded JSON object (`None` when the
value is not an object). -/
def pyDictGet : PyVal → String → Option PyVal
  | PyVal.dict entries, k => (entries.find? (fun e => e.1 == k)).map Prod.snd
  | _, _ => none

/-- Whether a decoded JSON value is an object (a Python mapping). -/
def PyVal.isDict : PyVal → Bool
  | PyVal.dict _ => true
  | _ => false

theorem find?_map_fst_preserving {β : Type} (l : List (String × String))
    (f : String × String → String × β) (hf : ∀ kv, (f kv).1 = kv.1) (k : String) :
    (l.map f).find? (fun e => e.1 == k) =
      (l.find? (fun kv => kv.1 == k)).map f := by
  induction l with
  | nil => rfl
  | cons kv t ih =>
    by_cases h : kv.1 = k
    · simp [List.find?_cons, hf, h]
    · have hb : (kv.1 == k) = false := by
        simp [h]
      have hb' : ((f kv).1 == k) = false := by
        simp [hf, h]
      simp [List.find?_cons, hb, hb', ih]

/-- C6: loading the structured config file immediately after saving a
mapping of supported string keys returns that mapping: the decoded value
is the JSON object with exactly the saved entries, and lookup of any key
agrees with lookup in the original mapping. -/
theorem load_save_roundtrip (m : List (String × String))
    (_hsupp : ∀ kv ∈ m,
      kv.1 ∈ (["leader_port", "follower_port", "robot_cameras"] : List String)) :
    load_config (save_config_json m) =
      PyVal.dict (m.map (fun kv => (kv.1, PyVal.str kv.2))) ∧
    ∀ k, pyDictGet (load_config (save_config_json m)) k =
      (m.find? (fun kv => kv.1 == k)).map (fun kv => PyVal.str kv.2) := by
  refine ⟨rfl, ?_⟩
  intro k
  show ((m.map (fun kv => (kv.1, PyVal.str kv.2))).find? (fun e => e.1 == k)).map
      Prod.snd = _
  rw [find?_map_fst_preserving m (fun kv => (kv.1, PyVal.str kv.2)) (fun kv => rfl) k]
  rw [Option.map_map]
  rfl

theorem load_save_roundtrip_witness :
    (∀ kv ∈ ([("leader_port", "/dev/ttyACM0")] : List (String × String)),
      kv.1 ∈ (["leader_port", "follower_port", "robot_cameras"] : List String)) ∧
    load_config (save_config_json [("leader_port", "/dev/ttyACM0")]) =
      PyVal.dict [("leader_port", PyVal.str "/dev/ttyACM0")] :=
  ⟨by decide,
    (load_save_roundtrip [("leader_port", "/dev/ttyACM0")] (by decide)).1⟩

/-- C7 counterexample: a config file whose bytes are the valid JSON text
`[]` decodes to a list; `load_config` returns it unchanged, so its
result is not always a mapping. -/
theorem load_config_not_always_mapping :
    load_config (ConfigFile.json (PyVal.list [])) = PyVal.list [] ∧
    (load_config (ConfigFile.json (PyVal.list []))).isDict = false :=
  ⟨rfl, rfl⟩

/-- C7 (amended): `load_config` never raises within the modelled decode
behavior and returns an empty mapping when the file is missing or fails
JSON decoding; when the file decodes, the result is the decoded value,
which is a mapping only if the file's top-level JSON value is an
object. -/
theorem load_config_spec (f : ConfigFile) :
    (f = ConfigFile.absent → load_config f = PyVal.dict []) ∧
    (f = ConfigFile.malformed → load_config f = PyVal.dict []) ∧
    (∀ v, f = ConfigFile.json v → load_config f = v) :=
  ⟨fun h => by subst h; rfl, fun h => by subst h; rfl, fun v h => by subst h; rfl⟩

theorem load_config_spec_witness :
    ConfigFile.malformed = ConfigFile.malformed ∧
    load_config ConfigFile.malformed = PyVal.dict [] :=
  ⟨rfl, (load_config_spec ConfigFile.malformed).2.1 rfl⟩

/-! ### LLM response parsing (`generate_augmented_tasks` in
`data_augmentation.py`)

The chat-completion request is an external collaborator; what is
verified is the in-repo parsing of the returned message text:
`[line.strip().lstrip('- ').strip() for line in content.split('\\n')
if line.strip()][:num_augs]`. -/

/-- The whitespace set of Python `str.strip()` (ASCII; the robot task
strings handled here are ASCII commands). -/
def isPySpace (c : Char) : Bool :=
  c == ' ' || c == '\t' || c == '\n' || c == '\r' || c == '\x0b' || c == '\x0c'

/-- Python `line.strip()`: drop whitespace from both ends. -/
def pyStrip (s : String) : String :=
  String.mk (((s.toList.dropWhile isPySpace).reverse.dropWhile isPySpace).reverse)

/-- Python `line.lstrip('- ')`: drop every leading `'-'` or `' '`. -/
def lstripBullet (s : String) : String :=
  String.mk (s.toList.dropWhile (fun c => c == '-' || c == ' '))

/-- Python `content.split('\\n')` on the character list: split at every
newline, keeping empty pieces (so `split` of the empty text is one empty
piece). -/
def splitNl : List Char → List (List Char)
  | [] => [[]]
  | c :: rest =>
    if c = '\n' then [] :: splitNl rest
    else
      match splitNl rest with
      | [] => [[c]]
      | l :: ls => (c :: l) :: ls

/-- Python `content.split('\\n')`. -/
def pySplitNl (content : String) : List String :=
  (splitNl content.toList).map String.mk

/-- The parsing step of `generate_augmented_tasks`, taking the response
message text and `num_augs`: keep the lines that are non-empty after
whitespace-stripping, strip bullet markers and surrounding whitespace
from each, and truncate to `num_augs` entries. -/
def parse_variations (content : String) (num_augs : Nat) : List String :=
  (((pySplitNl content).filter (fun line => pyStrip line != "")).map
    (fun line => pyStrip (lstripBullet (pyStrip line)))).take num_augs

/-- C8 counterexample: the response text `"---"` survives the emptiness
filter (it strips to `"---"`), but bullet-stripping then erases it
entirely, so `generate_augmented_tasks` returns `[""]`: a returned
variant is not guaranteed to be a non-empty string. -/
theorem parse_variations_empty_variant :
    parse_variations "---" 3 = [""] ∧
    ¬ (∀ v ∈ parse_variations "---" 3, v ≠ "") := by
  refine ⟨rfl, fun h => h "" (by decide) rfl⟩

/-- C8 (amended): the response is parsed by splitting on newlines,
dropping lines that are empty after whitespace-stripping, stripping
bullet markers and surrounding whitespace from each kept line, and
truncating to at most `num_augs` entries; every returned variant is the
stripped form of some kept line (but may be empty when the kept line
consists solely of bullet characters). -/
theorem parse_variations_spec (content : String) (num_augs : Nat) :
    (parse_variations content num_augs).length ≤ num_augs ∧
    ∀ v ∈ parse_variations content num_augs,
      ∃ line ∈ pySplitNl content, pyStrip line ≠ "" ∧
        v = pyStrip (lstripBullet (pyStrip line)) := by
  constructor
  · unfold parse_variations
    rw [List.length_take]
    exact min_le_left _ _
  · intro v hv
    have hv' := List.mem_of_mem_take hv
    rcases List.mem_map.mp hv' with ⟨line, hline, hveq⟩
    rcases List.mem_filter.mp hline with ⟨hmem, hpred⟩
    exact ⟨line, hmem, by simpa using hpred, hveq.symm⟩

theorem parse_variations_spec_witness :
    (parse_variations "- grab the cup\n- pick it up" 3).length ≤ 3 ∧
    ∃ line ∈ pySplitNl "- grab the cup\n- pick it up",
      pyStrip line ≠ "" ∧ "grab the cup" = pyStrip (lstripBullet (pyStrip line)) :=
  ⟨(parse_variations_spec "- grab the cup\n- pick it up" 3).1,
    (parse_variations_spec "- grab the cup\n- pick it up" 3).2 "grab the cup"
      (by decide)⟩

end LeHungry

